import Mathlib

/-!
Shallow embedding of `src/compiler.ts` (gliese1337/api-compiler).

The TypeScript `Compiler` class is modelled as pure functions over an
explicit registry (`deps`, a JS `Map` modelled as an insertion-ordered
association list) and an explicit cache state `CState`.  JS `Map.set`
overwrites in place keeping the original position; `Map.get` returns the
unique binding.  Sorting with the default JS comparator (lexicographic by
code unit) is modelled by `List.insertionSort (· ≤ ·)` on `String`.
Loops that the source runs with `while` are given an explicit fuel
parameter counting iterations; `none` means the loop has not finished
within the given fuel, and divergence is `∀ fuel, ... = none`.
Operation implementations (`fn: Function`) are modelled as `List Int → Int`;
values are opaque to the compiler, so any value type works.
-/

namespace ApiCompiler

abbrev VName := String

/-- `Map.get` on an insertion-ordered association list. -/
def alGet {α : Type _} (m : List (VName × α)) (k : VName) : Option α :=
  (m.find? (fun p => p.1 = k)).map (·.2)

/-- `Map.set` / JS property assignment: overwrite in place if the key is
present (keeping its position), otherwise append. -/
def alSet {α : Type _} (m : List (VName × α)) (k : VName) (v : α) :
    List (VName × α) :=
  if m.any (fun p => p.1 = k) then
    m.map (fun p => if p.1 = k then (k, v) else p)
  else
    m ++ [(k, v)]

/-- JS `Array.prototype.sort` with the default comparator on strings. -/
def sortStrs (l : List VName) : List VName :=
  l.insertionSort (· ≤ ·)

/-- `join('\0')`, used for the canonical cache keys. -/
def joinNul (l : List VName) : String :=
  String.intercalate "\x00" l

/-- `src/compiler.ts` lines 1-6: an operation declaration. -/
structure OpSpec where
  inputs : List VName
  outputs : VName
  fn : List Int → Int
  isAsync : Bool

/-- The `deps` map of the `Compiler` class: output name → operation. -/
abbrev Registry := List (VName × OpSpec)

/-- Constructor branch for explicit `OpSpec` descriptors (lines 42-44):
`deps.set(spec.outputs, spec)` for each spec, in order (the source-text
parsing branch for plain functions is out of the spec's scope). -/
def mkCompiler (optable : List OpSpec) : Registry :=
  optable.foldl (fun m s => alSet m s.outputs s) []

/-- Lines 16-20: `reverseDependencies` — yields `outputs` of every
registered operation having at least one direct input in `params`. -/
def reverseDependencies (deps : List OpSpec) (params : List VName) :
    List VName :=
  deps.filterMap (fun op =>
    if op.inputs.any (fun i => params.contains i) then some op.outputs
    else none)

/-! ## Graph traversal (lines 269-293)

The JS stack (`pop` from the end, `push(...)` appends) is modelled with the
list reversed, so the head is the top of the stack: the initial stack
`[...reqs]` becomes `reqs.reverse`, and `stack.push(...op.inputs)` becomes
`op.inputs.reverse ++ rest`.  `operations.push` appends, so it accumulates
reversed and is reversed at the end.  One unit of fuel is one iteration of
the `while (stack.length)` loop. -/

structure TravResult where
  operations : List VName
  params : List VName
  deriving DecidableEq, Repr

def travLoop (deps : Registry) (precomp : List VName) :
    Nat → List VName → List VName → List VName → List VName →
    Option TravResult
  | _, [], _, ops, params => some ⟨ops.reverse, sortStrs params.reverse⟩
  | 0, _ :: _, _, _, _ => none
  | fuel + 1, v :: rest, visited, ops, params =>
    if visited.contains v then travLoop deps precomp fuel rest visited ops params
    else
      match alGet deps v with
      | none => travLoop deps precomp fuel rest (v :: visited) ops (v :: params)
      | some op =>
        if precomp.contains v then
          travLoop deps precomp fuel rest (v :: visited) ops (v :: params)
        else
          travLoop deps precomp fuel (op.inputs.reverse ++ rest)
            (v :: visited) (v :: ops) params

/-- Fuel that always suffices for `travLoop` (each name is expanded at most
once, so iterations are bounded by the initial stack plus the total number
of declared inputs). -/
def travFuelBound (deps : Registry) (reqs : List VName) : Nat :=
  reqs.length + ((deps.map (fun p => p.2.inputs.length)).sum)

/-- Lines 269-293: `Compiler.traverse`.  Total, because the visited set
bounds the loop (proved below); the `getD` default is never reached. -/
def traverse (deps : Registry) (reqs : List VName) (precomp : List VName) :
    TravResult :=
  (travLoop deps precomp (travFuelBound deps reqs) reqs.reverse [] [] []).getD
    ⟨[], []⟩

/-! ## Wave scheduler (lines 300-340)

`linearize` copies the traversed operations into mutable nodes, then
repeatedly scans them: each node's remaining inputs are filtered against
`computed`; a node whose inputs are exhausted joins the current wave
(async group or sync group) and its output is added to `computed`
*immediately*, so later nodes of the same scan see it.  Waves store the
operations' output names (the source stores the `OpSpec` fetched back from
`deps`; the registry is immutable here so the name identifies it).  One
unit of fuel is one iteration of the `while (nodes.length)` loop. -/

structure LNode where
  inputs : List VName
  outputs : VName
  isAsync : Bool
  deriving DecidableEq, Repr

/-- A wave: async-capable group and synchronous group, by output name. -/
abbrev Wave := List VName × List VName

/-- One scan over the remaining nodes (the `for (const node of nodes)`
body): returns the grown `computed` set, the still-blocked nodes (with
their inputs filtered), and the async / sync groups of the wave. -/
def linPass (computed : List VName) :
    List LNode → List VName × List LNode × List VName × List VName
  | [] => (computed, [], [], [])
  | n :: rest =>
    let inputs' := n.inputs.filter (fun v => !computed.contains v)
    if inputs'.isEmpty then
      let res := linPass (computed ++ [n.outputs]) rest
      if n.isAsync then (res.1, res.2.1, n.outputs :: res.2.2.1, res.2.2.2)
      else (res.1, res.2.1, res.2.2.1, n.outputs :: res.2.2.2)
    else
      let res := linPass computed rest
      (res.1, { n with inputs := inputs' } :: res.2.1, res.2.2.1, res.2.2.2)

/-- The `while (nodes.length)` loop of `linearize`. -/
def linLoop : Nat → List VName → List LNode → List Wave → Option (List Wave)
  | _, _, [], acc => some acc.reverse
  | 0, _, _ :: _, _ => none
  | fuel + 1, computed, nodes, acc =>
    let res := linPass computed nodes
    linLoop fuel res.1 res.2.1 ((res.2.2.1, res.2.2.2) :: acc)

def dummyOp : OpSpec := ⟨[], "", fun _ => 0, false⟩

/-- The mutable node copies made at lines 308-311. -/
def linNodes (deps : Registry) (ops : List VName) : List LNode :=
  ops.map (fun v =>
    let op := (alGet deps v).getD dummyOp
    (⟨op.inputs, op.outputs, op.isAsync⟩ : LNode))

structure LinResult where
  blocks : List Wave
  params : List VName
  intermediates : List VName
  deriving DecidableEq, Repr

/-- Lines 300-340: `Compiler.linearize`.  `none` when the wave loop does
not finish within `fuel` scans. -/
def linearize (deps : Registry) (reqs : List VName) (precomputed : List VName)
    (fuel : Nat) : Option LinResult :=
  let t := traverse deps reqs precomputed
  (linLoop fuel (precomputed ++ t.params) (linNodes deps t.operations) []).map
    (fun blocks =>
      ⟨blocks, t.params, t.operations.filter (fun v => !reqs.contains v)⟩)

/-! ## Serialized plans, caches and the compile pipeline (lines 36-242)

`SerializedFn.body` is a generated JS source string in the original; its
behaviour is embedded as the structured `blocks` field interpreted by
`invoke` below, which reproduces the generated code's order of operation
calls (including the broken `await a${promises}` emission for waves that
mix async and sync operations).  A compiled function value is identified
by the allocation counter `nextId` (reference identity) together with its
plan. -/

structure SerializedFn where
  formulas : List (VName × String)
  params : List VName
  returns : List VName
  isAsync : Bool
  blocks : List Wave
  deriving DecidableEq, Repr

/-- A compiled executable: allocation identity plus its plan. -/
abbrev FnEntry := Nat × SerializedFn

structure ReqRec where
  intermediates : List VName
  params : List VName
  deriving DecidableEq, Repr

/-- The mutable fields of the `Compiler` class (lines 37-39). -/
structure CState where
  fn_cache : List (VName × List (VName × FnEntry))
  req_cache : List (VName × ReqRec)
  nextId : Nat
  deriving DecidableEq, Repr

def st0 : CState := ⟨[], [], 0⟩

inductive LinkErr where
  | linkage (name : VName)
  deriving DecidableEq, Repr

/-- Lines 79-114: `Compiler.loadSource`.  The `deps.get(k)!.fn` lookups
throw (a TypeError on `undefined`) at the first `formulas` key with no
registered operation, before anything is cached; otherwise a fresh
function value is allocated and cached under the canonical
`(returns, params)` keys. -/
def loadSource (deps : Registry) (st : CState) (src : SerializedFn) :
    Except LinkErr FnEntry × CState :=
  match src.formulas.find? (fun kv => (alGet deps kv.1).isNone) with
  | some kv => (.error (.linkage kv.1), st)
  | none =>
    let fe : FnEntry := (st.nextId, src)
    let rkey := joinNul (sortStrs src.returns)
    let pkey := joinNul (sortStrs src.params)
    let pcache := (alGet st.fn_cache rkey).getD []
    (.ok fe,
     { st with fn_cache := alSet st.fn_cache rkey (alSet pcache pkey fe),
               nextId := st.nextId + 1 })

/-- The `req_cache` key `${reqs.join('\0')}\0\0${precomputed.join('\0')}`
(lines 68 and 124), built from already-sorted lists. -/
def ckey (returns pre : List VName) : String :=
  joinNul returns ++ "\x00\x00" ++ joinNul pre

/-- `this.req_cache.set(key, r)` (lines 74 and 125). -/
def stWithReq (st : CState) (key : String) (r : ReqRec) : CState :=
  { st with req_cache := alSet st.req_cache key r }

/-- The serialized record assembled by `compile` (lines 127-213):
synthetic identifiers `v0, v1, …` go to the sorted params first, then to
each wave's async group followed by its sync group; `formulas` is the
`vids` map from operation name to synthetic identifier; `isAsync` is set
iff some wave has a non-empty async group; the generated `body` text is
embedded as the `blocks` it executes. -/
def mkSrc (lr : LinResult) (returns : List VName) : SerializedFn :=
  ⟨((lr.blocks.map (fun w => w.1 ++ w.2)).flatten).enum.map (fun p =>
      (p.2, "v" ++ toString (lr.params.length + p.1))),
   lr.params, returns, lr.blocks.any (fun w => !w.1.isEmpty), lr.blocks⟩

/-- Lines 116-216: `Compiler.compile`. -/
def compile (deps : Registry) (st : CState) (reqs : List VName)
    (precomputed : List VName) (fuel : Nat) :
    Option (Except LinkErr (FnEntry × SerializedFn) × CState) :=
  let pre := sortStrs precomputed
  let returns := sortStrs reqs
  (linearize deps returns pre fuel).map (fun lr =>
    let st1 := stWithReq st (ckey returns pre) ⟨lr.intermediates, lr.params⟩
    let r := loadSource deps st1 (mkSrc lr returns)
    (r.1.map (fun fe => (fe, mkSrc lr returns)), r.2))

/-- Lines 65-77: `Compiler.getParams`, with its memo `req_cache`. -/
def getParams (deps : Registry) (st : CState) (reqs : List VName)
    (precomputed : List VName) : ReqRec × CState :=
  let reqs' := sortStrs reqs
  let pre := sortStrs precomputed
  let key := ckey reqs' pre
  match alGet st.req_cache key with
  | some r => (r, st)
  | none =>
    let t := traverse deps reqs' pre
    let r : ReqRec := ⟨t.operations.filter (fun v => !reqs'.contains v), t.params⟩
    (r, stWithReq st key r)

/-- Lines 218-238: `Compiler.getCalculator` — the two-level cache lookup:
first by canonical returns key, then by the minimal params key obtained
from `getParams`. -/
def getCalculator (deps : Registry) (st : CState) (reqs : List VName)
    (precomputed : List VName) (fuel : Nat) :
    Option (Except LinkErr FnEntry × CState) :=
  let returns := sortStrs reqs
  let rkey := joinNul returns
  match alGet st.fn_cache rkey with
  | none =>
    (compile deps st returns precomputed fuel).map (fun r =>
      (r.1.map (fun p => p.1), r.2))
  | some pcache =>
    let g := getParams deps st returns precomputed
    let pkey := joinNul g.1.params
    match alGet pcache pkey with
    | some f => some (.ok f, g.2)
    | none =>
      (compile deps g.2 returns precomputed fuel).map (fun r =>
        (r.1.map (fun p => p.1), r.2))

/-! ## Invocation of a compiled plan (lines 92-103 and the generated body)

The wrapper built in `loadSource` (lines 95-103) first computes the
missing parameters; on any missing it throws the diagnostic built from
`reverseDependencies` over all registered operations, without calling the
generated body.  The generated body destructures exactly the `params`
from `args`, evaluates each wave in order, and assembles the results.

For a wave holding both async and sync operations, `mixed_block`
(lines 177-190) emits `const a${promises++} = …` and then awaits
`a${promises}` — the counter has already been incremented, so the emitted
code awaits a binding that is never initialised: at run time the async
group's calls and the sync group's calls are made, and then the await
line throws (`ReferenceError` / non-iterable `await`).  `evalBlocks`
reproduces this as the `brokenMixedWave` error. -/

/-- A JS object with integer-valued properties (argument / result maps). -/
abbrev Obj := List (VName × Int)

inductive InvokeErr where
  | missingArgs (missing : List VName) (uncalculable : List VName)
  | brokenMixedWave
  deriving DecidableEq, Repr

/-- Evaluate one group of operation calls sequentially, extending the
environment and recording each invoked operation. -/
def evalOps (deps : Registry) : Obj → List VName → List VName →
    Obj × List VName
  | env, tr, [] => (env, tr)
  | env, tr, o :: os =>
    let op := (alGet deps o).getD dummyOp
    let v := op.fn (op.inputs.map (fun i => (alGet env i).getD 0))
    evalOps deps (alSet env o v) (tr ++ [o]) os

/-- Evaluate the generated body's waves in order. -/
def evalBlocks (deps : Registry) : Obj → List VName → List Wave →
    Except InvokeErr Obj × List VName
  | env, tr, [] => (.ok env, tr)
  | env, tr, (a, s) :: ws =>
    if a.isEmpty then
      let r := evalOps deps env tr s
      evalBlocks deps r.1 r.2 ws
    else if s.isEmpty then
      let r := evalOps deps env tr a
      evalBlocks deps r.1 r.2 ws
    else
      let r1 := evalOps deps env tr a
      let r2 := evalOps deps r1.1 r1.2 s
      (.error .brokenMixedWave, r2.2)

/-- Invoking a loaded executable on an argument map: the missing-parameter
check of the wrapper, then the generated body.  The second component is
the trace of operation implementations invoked, in call order. -/
def invoke (deps : Registry) (src : SerializedFn) (args : Obj) :
    Except InvokeErr Obj × List VName :=
  let missing := src.params.filter (fun p => (alGet args p).isNone)
  if missing.isEmpty then
    let env := src.params.foldl (fun e p => alSet e p ((alGet args p).getD 0)) []
    match evalBlocks deps env [] src.blocks with
    | (.ok env', tr) =>
      (.ok (src.returns.map (fun v => (v, (alGet env' v).getD 0))), tr)
    | (.error e, tr) => (.error e, tr)
  else
    (.error (.missingArgs missing
       (reverseDependencies (deps.map (fun p => p.2)) missing)), [])

inductive CalcErr where
  | link (e : LinkErr)
  | invokeFail (e : InvokeErr)
  deriving DecidableEq, Repr

/-- Lines 240-242: `Compiler.calculate` — derive the precomputed hint from
the keys of `args`, get the (cached) executable, invoke it. -/
def calculate (deps : Registry) (st : CState) (reqs : List VName)
    (args : Obj) (fuel : Nat) :
    Option (Except CalcErr Obj × CState × List VName) :=
  (getCalculator deps st reqs (args.map (fun p => p.1)) fuel).map (fun r =>
    match r.1 with
    | .error e => (.error (.link e), r.2, [])
    | .ok fe =>
      let iv := invoke deps fe.2 args
      (iv.1.mapError .invokeFail, r.2, iv.2))

/-! ## The interpreter (lines 22-31, 244-262)

JS objects are mutated through references, so the memo behaviour of
`calcValue` is modelled with a small heap: a list of objects indexed by
reference.  `interpret` copies the caller's argument object into a fresh
cell (`const vals = { ...args }`, line 246) and hands `calcValue` the
*copy's* reference; `calcValue` reads and writes only through that
reference (`vals[req] = val`, line 29).  Fuel bounds the recursion depth
(the JS engine's stack would overflow on a cyclic registry). -/

abbrev Heap := List Obj

def heapGet (h : Heap) (r : Nat) : Obj := h.getD r []

def heapSet (h : Heap) (r : Nat) (o : Obj) : Heap := h.set r o

inductive IErr where
  | missing (name : VName)
  | noFuel
  deriving DecidableEq, Repr

/-- The `for (const n of op.inputs)` loop of `calcValue` (line 27):
resolve each input in order through the supplied evaluator, threading the
heap; the first failure propagates. -/
def calcListWith (f : VName → Nat → Heap → Except IErr Int × Heap) :
    List VName → Nat → Heap → Except IErr (List Int) × Heap
  | [], _, h => (.ok [], h)
  | n :: ns, r, h =>
    match f n r h with
    | (.error e, h') => (.error e, h')
    | (.ok v, h') =>
      match calcListWith f ns r h' with
      | (.error e, h'') => (.error e, h'')
      | (.ok vs, h'') => (.ok (v :: vs), h'')

/-- Lines 22-31: `calcValue` — memoised recursive evaluation through the
`vals` reference `r`; the fuel bounds the recursion depth. -/
def calcValue (deps : Registry) : Nat → VName → Nat → Heap →
    Except IErr Int × Heap
  | 0, _, _, h => (.error .noFuel, h)
  | fuel + 1, req, r, h =>
    match alGet (heapGet h r) req with
    | some v => (.ok v, h)
    | none =>
      match alGet deps req with
      | none => (.error (.missing req), h)
      | some op =>
        match calcListWith (calcValue deps fuel) op.inputs r h with
        | (.error e, h') => (.error e, h')
        | (.ok argvals, h') =>
          let v := op.fn argvals
          (.ok v, heapSet h' r (alSet (heapGet h' r) req v))

inductive TopErr where
  | cannotCalc (top : VName) (missing : VName)
  | noFuel
  deriving DecidableEq, Repr

/-- The `for (const val of reqs)` loop of `interpret` (lines 249-259): a
`missing` signal from `calcValue` is turned into the two-name diagnostic
for the top-level request being computed. -/
def interpLoop (deps : Registry) (fuel : Nat) (valsRef : Nat) :
    List VName → Obj → Heap → Except TopErr Obj × Heap
  | [], ret, h => (.ok ret, h)
  | v :: vs, ret, h =>
    match calcValue deps fuel v valsRef h with
    | (.ok x, h') => interpLoop deps fuel valsRef vs (alSet ret v x) h'
    | (.error (.missing m), h') => (.error (.cannotCalc v m), h')
    | (.error .noFuel, h') => (.error .noFuel, h')

/-- Lines 244-262: `Compiler.interpret`.  The caller's argument object
lives at `argsRef`; a fresh cell holding a copy of it is allocated for the
memo, and all evaluation goes through that fresh reference. -/
def interpret (deps : Registry) (reqs : List VName) (argsRef : Nat)
    (h : Heap) (fuel : Nat) : Except TopErr Obj × Heap :=
  interpLoop deps fuel h.length reqs [] (h ++ [heapGet h argsRef])

/-! ## Concrete registries used in the examples and witnesses -/

/-- The spec's §8 example: `double(x) = 2x`, `addOne(double) = double + 1`. -/
def dblReg : Registry := mkCompiler
  [⟨["x"], "double", fun a => 2 * a.headD 0, false⟩,
   ⟨["double"], "addOne", fun a => a.headD 0 + 1, false⟩]

/-- A two-operation dependency cycle: `a` needs `b`, `b` needs `a`. -/
def cycReg : Registry := mkCompiler
  [⟨["b"], "a", fun a => a.headD 0, false⟩,
   ⟨["a"], "b", fun a => a.headD 0, false⟩]

/-- A registry whose request `[h]` schedules a wave holding one async and
one sync operation (`f` async and `g` sync, both from raw input `x`). -/
def mixReg : Registry := mkCompiler
  [⟨["x"], "f", fun a => a.headD 0, true⟩,
   ⟨["x"], "g", fun a => a.headD 0 + 1, false⟩,
   ⟨["f", "g"], "h", fun a => a.headD 0 + a.getD 1 0, false⟩]

/-- `a` needs `b` and `c`; `b` needs `x`.  With no arguments, both `x`
(two hops down, first in recursion order) and `c` (a direct input) are
missing. -/
def missReg : Registry := mkCompiler
  [⟨["b", "c"], "a", fun a => a.headD 0, false⟩,
   ⟨["x"], "b", fun a => a.headD 0, false⟩]

/-- The claim that `linearize` on the cyclic registry never returns, at
any fuel: this is the fuel-model statement of non-termination of the
`while (nodes.length)` loop. -/
def linearizeNeverReturns : Prop :=
  ∀ fuel : Nat, linearize cycReg ["a"] [] fuel = none

/-- The stuck node list `linearize` reaches for request `[a]` on `cycReg`. -/
def cycNodes : List LNode :=
  linNodes cycReg (traverse cycReg ["a"] []).operations

def defaultSrc : SerializedFn := ⟨[], [], [], false, []⟩

instance {ε α : Type _} [DecidableEq ε] [DecidableEq α] :
    DecidableEq (Except ε α)
  | .ok a, .ok b =>
    decidable_of_iff (a = b) ⟨fun h => h ▸ rfl, fun h => Except.ok.inj h⟩
  | .error a, .error b =>
    decidable_of_iff (a = b) ⟨fun h => h ▸ rfl, fun h => Except.error.inj h⟩
  | .ok _, .error _ => .isFalse (fun h => Except.noConfusion h)
  | .error _, .ok _ => .isFalse (fun h => Except.noConfusion h)

/-- Projections of concrete pipeline runs, used to state closed witnesses
without copying out large literals. -/
def compileSrc (deps : Registry) (reqs pre : List VName) (fuel : Nat) :
    SerializedFn :=
  match compile deps st0 reqs pre fuel with
  | some (.ok (_, src), _) => src
  | _ => defaultSrc

def compileFn (deps : Registry) (reqs pre : List VName) (fuel : Nat) :
    FnEntry :=
  match compile deps st0 reqs pre fuel with
  | some (.ok (fe, _), _) => fe
  | _ => (0, defaultSrc)

def compileSt (deps : Registry) (reqs pre : List VName) (fuel : Nat) :
    CState :=
  match compile deps st0 reqs pre fuel with
  | some (_, s) => s
  | _ => st0

def getCalcFn (deps : Registry) (st : CState) (reqs pre : List VName)
    (fuel : Nat) : FnEntry :=
  match getCalculator deps st reqs pre fuel with
  | some (.ok f, _) => f
  | _ => (0, defaultSrc)

def getCalcSt (deps : Registry) (st : CState) (reqs pre : List VName)
    (fuel : Nat) : CState :=
  match getCalculator deps st reqs pre fuel with
  | some (_, s) => s
  | _ => st0

def interpHeap (deps : Registry) (reqs : List VName) (argsRef : Nat)
    (h : Heap) (fuel : Nat) : Heap :=
  (interpret deps reqs argsRef h fuel).2

/-! ## Helper lemmas -/

theorem sortStrs_sorted (l : List VName) :
    List.Sorted (· ≤ ·) (sortStrs l) :=
  List.sorted_insertionSort _ l

theorem sortStrs_idem (l : List VName) : sortStrs (sortStrs l) = sortStrs l :=
  (sortStrs_sorted l).insertionSort_eq

/-- If one scan of the remaining nodes makes no progress (same computed
set, same nodes), every further scan repeats it, so the wave loop never
returns. -/
theorem linLoop_noProgress (c : List VName) (ns : List LNode)
    (a s : List VName) (h1 : linPass c ns = (c, ns, a, s)) (h2 : ns ≠ []) :
    ∀ fuel acc, linLoop fuel c ns acc = none := by
  intro fuel
  induction fuel with
  | zero =>
    intro acc
    match ns, h2 with
    | n :: t, _ => rfl
  | succ fuel ih =>
    intro acc
    match ns, h2 with
    | n :: t, _ =>
      show linLoop (fuel + 1) c (n :: t) acc = none
      unfold linLoop
      rw [h1]
      exact ih ((a, s) :: acc)

/-! ## Claims -/

/-- C6: for the registry `double(x) = 2x`, `addOne(double) = double + 1`:
`getParams(['addOne'])` yields `params = ['x']`, `intermediates =
['double']`; `calculate(['addOne'], {x: 3})` returns `{addOne: 7}`; and
`calculate(['addOne'], {double: 10})` returns `{addOne: 11}`, the
precomputed name `double` being treated as a raw input that prunes the
subtree below it. -/
theorem C6_double_addOne_example :
    (getParams dblReg st0 ["addOne"] []).1 =
      ⟨["double"], ["x"]⟩ ∧
    (calculate dblReg st0 ["addOne"] [("x", 3)] 9).map (fun r => r.1) =
      some (.ok [("addOne", 7)]) ∧
    (calculate dblReg st0 ["addOne"] [("double", 10)] 9).map (fun r => r.1) =
      some (.ok [("addOne", 11)]) := by
  refine ⟨by decide, ?_, ?_⟩ <;> decide

/-- C1 (amended): the scheduling step does **not** detect dependency
cycles.  Whenever a scan of the remaining operations makes no progress
while operations remain — the cycle situation — `linearize` never returns
at any fuel (the `while (nodes.length)` loop runs forever), instead of
surfacing a fatal configuration error. -/
theorem C1_cycle_loops_forever (deps : Registry) (reqs pre : List VName)
    (a s : List VName)
    (h1 : linPass (pre ++ (traverse deps reqs pre).params)
            (linNodes deps (traverse deps reqs pre).operations) =
          (pre ++ (traverse deps reqs pre).params,
           linNodes deps (traverse deps reqs pre).operations, a, s))
    (h2 : linNodes deps (traverse deps reqs pre).operations ≠ [])
    (fuel : Nat) :
    linearize deps reqs pre fuel = none := by
  show (linLoop fuel (pre ++ (traverse deps reqs pre).params)
      (linNodes deps (traverse deps reqs pre).operations) []).map _ = none
  rw [linLoop_noProgress _ _ _ _ h1 h2 fuel []]
  rfl

theorem cyc_linearize_none (fuel : Nat) :
    linearize cycReg ["a"] [] fuel = none := by
  show (linLoop fuel ([] ++ (traverse cycReg ["a"] []).params)
      (linNodes cycReg (traverse cycReg ["a"] []).operations) []).map _ = none
  rw [linLoop_noProgress _ _ [] [] (by decide) (by decide) fuel []]
  rfl

/-- C1 counterexample: on the two-operation cycle `a ↔ b`, `linearize`
returns at no fuel whatsoever — the loop diverges and no error is ever
reported, so the claimed termination-with-explicit-error is false. -/
theorem C1_counterexample : linearizeNeverReturns :=
  fun fuel => cyc_linearize_none fuel

theorem C1_witness :
    linPass ([] ++ (traverse cycReg ["a"] []).params)
        (linNodes cycReg (traverse cycReg ["a"] []).operations) =
      ([] ++ (traverse cycReg ["a"] []).params,
       linNodes cycReg (traverse cycReg ["a"] []).operations, [], []) ∧
    linNodes cycReg (traverse cycReg ["a"] []).operations ≠ [] ∧
    linearize cycReg ["a"] [] 37 = none :=
  ⟨by decide, by decide,
   C1_cycle_loops_forever cycReg ["a"] [] [] [] (by decide) (by decide) 37⟩

/-- C7 counterexample: the cyclic registry `a ↔ b` is a request whose
required operations contain a true cycle, yet the traversal loop exits
(within 10 iterations here): the visited set prevents re-expansion, so
`traverse` terminates; the claimed non-termination is false. -/
theorem C7_counterexample :
    travLoop cycReg [] 10 ["a"] [] [] [] =
      some ⟨["a", "b"], []⟩ ∧
    traverse cycReg ["a"] [] = ⟨["a", "b"], []⟩ := by
  exact ⟨by decide, by decide⟩

/-- C4: the schedule for `[h]` on `mixReg` puts `f` (async) and `g`
(sync) in one wave; the generated body for such a mixed wave awaits
`a${promises}` *after* the counter was already incremented (lines
180-182), i.e. a binding that was never initialised, so every invocation
throws after calling `f` and `g` and never invokes `h` — `h` is invoked
zero times per call, not exactly once. -/
theorem C4_mixed_wave_bug :
    (compile mixReg st0 ["h"] [] 9).map (fun r => r.1.map (fun p => p.2)) =
      some (.ok (compileSrc mixReg ["h"] [] 9)) ∧
    (compileSrc mixReg ["h"] [] 9).blocks = [(["f"], ["g"]), ([], ["h"])] ∧
    invoke mixReg (compileSrc mixReg ["h"] [] 9) [("x", 1)] =
      (.error .brokenMixedWave, ["f", "g"]) := by
  refine ⟨by decide, by decide, by decide⟩

/-- C8: whenever the registry lacks an operation for some key of a
record's `formulas` mapping, `loadSource` raises a linkage error naming a
missing key (the `deps.get(k)!.fn` access throws at the first such key),
leaves the caches untouched, and never silently binds a missing
implementation. -/
theorem C8_linkage_error (deps : Registry) (st : CState) (src : SerializedFn)
    (h : ∃ kv ∈ src.formulas, alGet deps kv.1 = none) :
    ∃ k, (∃ v, (k, v) ∈ src.formulas) ∧ alGet deps k = none ∧
      loadSource deps st src = (.error (.linkage k), st) := by
  obtain ⟨kv, hmem, hnone⟩ := h
  have hsome : (src.formulas.find? (fun kv => (alGet deps kv.1).isNone)).isSome :=
    List.find?_isSome.mpr ⟨kv, hmem, by simp [hnone]⟩
  obtain ⟨kv', hf⟩ := Option.isSome_iff_exists.mp hsome
  refine ⟨kv'.1, ⟨kv'.2, ?_⟩, ?_, ?_⟩
  · exact List.mem_of_find?_eq_some hf
  · have := List.find?_some hf
    simpa [Option.isNone_iff_eq_none] using this
  · unfold loadSource
    rw [hf]

theorem C8_witness :
    (∃ kv ∈ (⟨[("zz", "v0")], [], [], false, []⟩ : SerializedFn).formulas,
      alGet ([] : Registry) kv.1 = none) ∧
    ∃ k, (∃ v, (k, v) ∈ (⟨[("zz", "v0")], [], [], false, []⟩ :
          SerializedFn).formulas) ∧
      alGet ([] : Registry) k = none ∧
      loadSource [] st0 ⟨[("zz", "v0")], [], [], false, []⟩ =
        (.error (.linkage k), st0) :=
  ⟨⟨("zz", "v0"), by decide, rfl⟩,
   C8_linkage_error [] st0 _ ⟨("zz", "v0"), by decide, rfl⟩⟩

/-- C3: invoking a compiled executable on an argument map missing at
least one of the plan's params fails immediately — no operation
implementation is invoked (empty trace) — with an error carrying exactly
the missing parameter names and exactly the output names of registered
operations having at least one direct input among the missing names
(one-hop reverse lookup over all registered operations). -/
theorem C3_missing_args_error (deps : Registry) (st st' : CState)
    (reqs pre : List VName) (fuel : Nat) (fe : FnEntry) (src : SerializedFn)
    (args : Obj)
    (_hc : compile deps st reqs pre fuel = some (.ok (fe, src), st'))
    (hm : src.params.filter (fun p => (alGet args p).isNone) ≠ []) :
    invoke deps src args =
      (.error (.missingArgs
        (src.params.filter (fun p => (alGet args p).isNone))
        (reverseDependencies (deps.map (fun p => p.2))
          (src.params.filter (fun p => (alGet args p).isNone)))), []) ∧
    (∀ m, m ∈ src.params.filter (fun p => (alGet args p).isNone) ↔
      m ∈ src.params ∧ alGet args m = none) ∧
    (∀ u, u ∈ reverseDependencies (deps.map (fun p => p.2))
        (src.params.filter (fun p => (alGet args p).isNone)) ↔
      ∃ op ∈ deps.map (fun p => p.2), op.outputs = u ∧
        ∃ i ∈ op.inputs,
          i ∈ src.params.filter (fun p => (alGet args p).isNone)) := by
  refine ⟨?_, ?_, ?_⟩
  · unfold invoke
    rw [if_neg (by simpa [List.isEmpty_iff] using hm)]
  · intro m
    simp [List.mem_filter, Option.isNone_iff_eq_none]
  · intro u
    simp only [reverseDependencies, List.mem_filterMap]
    constructor
    · rintro ⟨op, hop, hf⟩
      by_cases hany : op.inputs.any
          (fun i => (src.params.filter (fun p => (alGet args p).isNone)).contains i)
      · rw [if_pos hany] at hf
        obtain ⟨i, hi, hci⟩ := List.any_eq_true.mp hany
        exact ⟨op, hop, Option.some.inj hf, i, hi,
          by simpa using hci⟩
      · rw [if_neg hany] at hf
        exact absurd hf (by simp)
    · rintro ⟨op, hop, hout, i, hi, him⟩
      refine ⟨op, hop, ?_⟩
      rw [if_pos (List.any_eq_true.mpr ⟨i, hi, by simpa using him⟩)]
      exact congrArg some hout

theorem C3_witness :
    compile dblReg st0 ["addOne"] [] 9 =
      some (.ok (compileFn dblReg ["addOne"] [] 9,
                 compileSrc dblReg ["addOne"] [] 9),
            compileSt dblReg ["addOne"] [] 9) ∧
    (compileSrc dblReg ["addOne"] [] 9).params.filter
      (fun p => (alGet ([("w", 1)] : Obj) p).isNone) = ["x"] ∧
    invoke dblReg (compileSrc dblReg ["addOne"] [] 9) [("w", 1)] =
      (.error (.missingArgs
        ((compileSrc dblReg ["addOne"] [] 9).params.filter
          (fun p => (alGet ([("w", 1)] : Obj) p).isNone))
        (reverseDependencies (dblReg.map (fun p => p.2))
          ((compileSrc dblReg ["addOne"] [] 9).params.filter
            (fun p => (alGet ([("w", 1)] : Obj) p).isNone)))), []) :=
  ⟨by decide, by decide,
   (C3_missing_args_error dblReg st0 (compileSt dblReg ["addOne"] [] 9)
     ["addOne"] [] 9 (compileFn dblReg ["addOne"] [] 9)
     (compileSrc dblReg ["addOne"] [] 9) [("w", 1)]
     (by decide) (by decide)).1⟩

theorem except_map_ok {ε α β : Type _} {f : α → β} {x : Except ε α} {b : β}
    (h : x.map f = .ok b) : ∃ a, x = .ok a ∧ f a = b := by
  cases x with
  | error e => simp [Except.map] at h
  | ok a => exact ⟨a, rfl, by simpa [Except.map] using h⟩

theorem option_map_some {α β : Type _} {f : α → β} {x : Option α} {b : β}
    (h : x.map f = some b) : ∃ a, x = some a ∧ f a = b := by
  cases x with
  | none => simp at h
  | some a => exact ⟨a, rfl, by simpa using h⟩

/-- C5: for the same `(wanted, precomputed_hint)` pair, the params list
returned by `getParams` (on any state whose memo does not already hold
the pair's key) is equal — even as a list, hence as a set — to the
`params` of the serialized record produced by `compile`. -/
theorem C5_params_agree (deps : Registry) (st stc st' : CState)
    (reqs pre : List VName) (fuel : Nat) (fe : FnEntry) (src : SerializedFn)
    (hg : alGet st.req_cache (ckey (sortStrs reqs) (sortStrs pre)) = none)
    (hc : compile deps stc reqs pre fuel = some (.ok (fe, src), st')) :
    (getParams deps st reqs pre).1.params = src.params := by
  simp only [compile] at hc
  cases hl : linearize deps (sortStrs reqs) (sortStrs pre) fuel with
  | none => rw [hl] at hc; exact absurd hc (by simp)
  | some lr =>
    rw [hl, Option.map_some'] at hc
    have h1 := congrArg Prod.fst (Option.some.inj hc)
    simp only at h1
    obtain ⟨fe', _, hfe⟩ := except_map_ok h1
    have hsrc := congrArg Prod.snd hfe
    simp only at hsrc
    have hlp : lr.params =
        (traverse deps (sortStrs reqs) (sortStrs pre)).params := by
      simp only [linearize] at hl
      obtain ⟨blocks, _, hbl⟩ := option_map_some hl
      exact (congrArg LinResult.params hbl).symm
    rw [← hsrc]
    simp only [getParams, hg]
    exact hlp.symm

theorem C5_witness :
    alGet st0.req_cache (ckey (sortStrs ["addOne"]) (sortStrs [])) = none ∧
    compile dblReg st0 ["addOne"] [] 9 =
      some (.ok (compileFn dblReg ["addOne"] [] 9,
                 compileSrc dblReg ["addOne"] [] 9),
            compileSt dblReg ["addOne"] [] 9) ∧
    (getParams dblReg st0 ["addOne"] []).1.params =
      (compileSrc dblReg ["addOne"] [] 9).params :=
  ⟨rfl, by decide,
   C5_params_agree dblReg st0 st0 (compileSt dblReg ["addOne"] [] 9)
     ["addOne"] [] 9 (compileFn dblReg ["addOne"] [] 9)
     (compileSrc dblReg ["addOne"] [] 9) rfl (by decide)⟩

theorem alGet_map_overwrite {α : Type _} (m : List (VName × α)) (k : VName)
    (v : α) (h : m.any (fun p => p.1 = k) = true) :
    alGet (m.map (fun p => if p.1 = k then (k, v) else p)) k = some v := by
  induction m with
  | nil => simp at h
  | cons p t ih =>
    by_cases hp : p.1 = k
    · simp only [List.map_cons, if_pos hp]
      simp [alGet, List.find?]
    · simp only [List.map_cons, if_neg hp]
      have ht : t.any (fun p => p.1 = k) = true := by
        simp only [List.any_cons, Bool.or_eq_true, decide_eq_true_eq] at h
        exact List.any_eq_true.mpr
          (by simpa using h.resolve_left hp)
      have := ih ht
      simpa [alGet, List.find?, hp] using this

theorem alGet_append_last {α : Type _} (m : List (VName × α)) (k : VName)
    (v : α) (h : m.any (fun p => p.1 = k) = false) :
    alGet (m ++ [(k, v)]) k = some v := by
  induction m with
  | nil => simp [alGet, List.find?]
  | cons p t ih =>
    simp only [List.any_cons, Bool.or_eq_false_iff, decide_eq_false_iff_not] at h
    have := ih (by simpa [List.any_eq_true] using h.2)
    simpa [alGet, List.find?, h.1] using this

/-- After `Map.set(k, v)`, `Map.get(k)` returns `v`. -/
theorem alGet_alSet_self {α : Type _} (m : List (VName × α)) (k : VName)
    (v : α) : alGet (alSet m k v) k = some v := by
  unfold alSet
  by_cases h : m.any (fun p => p.1 = k)
  · rw [if_pos h]; exact alGet_map_overwrite m k v h
  · rw [if_neg h]
    exact alGet_append_last m k v (Bool.not_eq_true _ ▸ h)

/-- The params accumulated by the traversal loop are sorted on exit, so a
further sort leaves them unchanged. -/
theorem travLoop_params_fix (deps : Registry) (pre : List VName) :
    ∀ (fuel : Nat) (stack visited ops params : List VName) (r : TravResult),
    travLoop deps pre fuel stack visited ops params = some r →
    sortStrs r.params = r.params := by
  intro fuel
  induction fuel with
  | zero =>
    intro stack visited ops params r h
    cases stack with
    | nil =>
      simp only [travLoop, Option.some.injEq] at h
      rw [← h]
      exact sortStrs_idem _
    | cons v rest => exact absurd h (by simp [travLoop])
  | succ fuel ih =>
    intro stack visited ops params r h
    cases stack with
    | nil =>
      simp only [travLoop, Option.some.injEq] at h
      rw [← h]
      exact sortStrs_idem _
    | cons v rest =>
      simp only [travLoop] at h
      split at h
      · exact ih _ _ _ _ _ h
      · split at h
        · exact ih _ _ _ _ _ h
        · split at h
          · exact ih _ _ _ _ _ h
          · exact ih _ _ _ _ _ h

theorem traverse_params_fix (deps : Registry) (reqs pre : List VName) :
    sortStrs (traverse deps reqs pre).params = (traverse deps reqs pre).params := by
  unfold traverse
  cases h : travLoop deps pre (travFuelBound deps reqs) reqs.reverse [] [] [] with
  | none => rfl
  | some r => exact travLoop_params_fix deps pre _ _ _ _ _ r h

theorem linearize_params_fix {deps : Registry} {reqs pre : List VName}
    {fuel : Nat} {lr : LinResult}
    (h : linearize deps reqs pre fuel = some lr) :
    sortStrs lr.params = lr.params := by
  simp only [linearize] at h
  obtain ⟨blocks, _, hbl⟩ := option_map_some h
  rw [← hbl]
  exact traverse_params_fix deps reqs pre

/-- Inversion for a successful `loadSource`. -/
theorem loadSource_ok {deps : Registry} {st : CState} {src : SerializedFn}
    {fe : FnEntry} {st' : CState}
    (h : loadSource deps st src = (.ok fe, st')) :
    src.formulas.find? (fun kv => (alGet deps kv.1).isNone) = none ∧
    fe = (st.nextId, src) ∧
    st' = { st with
      fn_cache := alSet st.fn_cache (joinNul (sortStrs src.returns))
        (alSet ((alGet st.fn_cache (joinNul (sortStrs src.returns))).getD [])
          (joinNul (sortStrs src.params)) (st.nextId, src)),
      nextId := st.nextId + 1 } := by
  unfold loadSource at h
  cases hf : src.formulas.find? (fun kv => (alGet deps kv.1).isNone) with
  | some kv =>
    rw [hf] at h
    exact absurd (congrArg Prod.fst h) (by simp)
  | none =>
    rw [hf] at h
    refine ⟨rfl, ?_, ?_⟩
    · have := congrArg Prod.fst h
      simpa using this.symm
    · exact (congrArg Prod.snd h).symm

/-- Inversion for a successful `compile`. -/
theorem compile_ok {deps : Registry} {st : CState} {reqs pre : List VName}
    {fuel : Nat} {fe : FnEntry} {src : SerializedFn} {st₂ : CState}
    (h : compile deps st reqs pre fuel = some (.ok (fe, src), st₂)) :
    ∃ lr, linearize deps (sortStrs reqs) (sortStrs pre) fuel = some lr ∧
      src = mkSrc lr (sortStrs reqs) ∧
      loadSource deps
        (stWithReq st (ckey (sortStrs reqs) (sortStrs pre))
          ⟨lr.intermediates, lr.params⟩)
        (mkSrc lr (sortStrs reqs)) = (.ok fe, st₂) := by
  simp only [compile] at h
  obtain ⟨lr, hl, hval⟩ := option_map_some h
  have h1 := congrArg Prod.fst hval
  have h2 := congrArg Prod.snd hval
  simp only at h1 h2
  obtain ⟨fe', hE, hfe⟩ := except_map_ok h1
  have hfe1 : fe' = fe := congrArg Prod.fst hfe
  have hfe2 := congrArg Prod.snd hfe
  simp only at hfe2
  refine ⟨lr, hl, hfe2.symm, ?_⟩
  calc loadSource deps _ (mkSrc lr (sortStrs reqs))
      = ((loadSource deps _ (mkSrc lr (sortStrs reqs))).1,
         (loadSource deps _ (mkSrc lr (sortStrs reqs))).2) := rfl
    _ = (.ok fe, st₂) := by rw [hE, hfe1, h2]

/-- `getParams` never touches the function cache. -/
theorem getParams_fn_cache (deps : Registry) (st : CState)
    (q pre : List VName) : (getParams deps st q pre).2.fn_cache = st.fn_cache := by
  simp only [getParams]
  split
  · rfl
  · rfl

/-- A second `getParams` call with the same arguments, run on the state
the first call produced, returns the same record and leaves the state
unchanged. -/
theorem getParams_idem (deps : Registry) (st : CState) (q pre : List VName) :
    getParams deps (getParams deps st q pre).2 q pre =
      getParams deps st q pre := by
  cases hk : alGet st.req_cache (ckey (sortStrs q) (sortStrs pre)) with
  | some r => simp only [getParams, hk]
  | none => simp only [getParams, hk, stWithReq, alGet_alSet_self]

/-- After a successful `compile` triggered with the canonically sorted
request list, a `getCalculator` call with the same arguments hits both
cache levels: it returns exactly the compiled executable and leaves the
state unchanged. -/
theorem getCalculator_after_compile {deps : Registry} {st : CState}
    {reqs pre : List VName} {fuel : Nat} {fe : FnEntry} {src : SerializedFn}
    {st₂ : CState}
    (h : compile deps st (sortStrs reqs) pre fuel = some (.ok (fe, src), st₂))
    (fuel₂ : Nat) :
    getCalculator deps st₂ reqs pre fuel₂ = some (.ok fe, st₂) := by
  obtain ⟨lr, hl, hsrc, hload⟩ := compile_ok h
  obtain ⟨hfind, hfe, hst₂⟩ := loadSource_ok hload
  have hparams : sortStrs lr.params = lr.params := linearize_params_fix hl
  subst hst₂
  subst hfe
  simp only [getCalculator, getParams, stWithReq, mkSrc, sortStrs_idem,
    hparams, alGet_alSet_self]

/-- C2: for a fixed registry, if a `getCalculator` call returns an
executable, a second call with the same wanted set and the same
precomputed-hint set returns the *identical* executable (same allocation)
and leaves the compiler state unchanged: the second call is answered by
the two-level cache keyed by the canonical returns key and the minimal
params key from `getParams`. -/
theorem C2_cache_identity (deps : Registry) (st : CState)
    (reqs pre : List VName) (fuel fuel₂ : Nat) (f : FnEntry) (st₁ : CState)
    (h : getCalculator deps st reqs pre fuel = some (.ok f, st₁)) :
    getCalculator deps st₁ reqs pre fuel₂ = some (.ok f, st₁) := by
  simp only [getCalculator] at h
  cases hrk : alGet st.fn_cache (joinNul (sortStrs reqs)) with
  | none =>
    rw [hrk] at h
    simp only [] at h
    obtain ⟨r, hcomp, hwrap⟩ := option_map_some h
    have h1 := congrArg Prod.fst hwrap
    have h2 := congrArg Prod.snd hwrap
    simp only at h1 h2
    obtain ⟨p, hE, hp⟩ := except_map_ok h1
    have hcomp' : compile deps st (sortStrs reqs) pre fuel =
        some (.ok (f, p.2), st₁) := by
      rw [hcomp]
      congr 1
      show (r.1, r.2) = (Except.ok (f, p.2), st₁)
      rw [hE, h2, ← hp]
    exact getCalculator_after_compile hcomp' fuel₂
  | some pcache =>
    rw [hrk] at h
    simp only [] at h
    cases hpk : alGet pcache
        (joinNul (getParams deps st (sortStrs reqs) pre).1.params) with
    | some f' =>
      rw [hpk] at h
      simp only [] at h
      have hinj := Option.some.inj h
      have hf : f' = f := Except.ok.inj (congrArg Prod.fst hinj)
      have hst : (getParams deps st (sortStrs reqs) pre).2 = st₁ :=
        congrArg Prod.snd hinj
      rw [← hst]
      simp only [getCalculator, getParams_fn_cache, hrk, getParams_idem, hpk,
        hf]
    | none =>
      rw [hpk] at h
      simp only [] at h
      obtain ⟨r, hcomp, hwrap⟩ := option_map_some h
      have h1 := congrArg Prod.fst hwrap
      have h2 := congrArg Prod.snd hwrap
      simp only at h1 h2
      obtain ⟨p, hE, hp⟩ := except_map_ok h1
      have hcomp' : compile deps (getParams deps st (sortStrs reqs) pre).2
          (sortStrs reqs) pre fuel = some (.ok (f, p.2), st₁) := by
        rw [hcomp]
        congr 1
        show (r.1, r.2) = (Except.ok (f, p.2), st₁)
        rw [hE, h2, ← hp]
      exact getCalculator_after_compile hcomp' fuel₂

theorem C2_witness :
    getCalculator dblReg st0 ["addOne"] [] 9 =
      some (.ok (getCalcFn dblReg st0 ["addOne"] [] 9),
            getCalcSt dblReg st0 ["addOne"] [] 9) ∧
    getCalculator dblReg (getCalcSt dblReg st0 ["addOne"] [] 9)
        ["addOne"] [] 0 =
      some (.ok (getCalcFn dblReg st0 ["addOne"] [] 9),
            getCalcSt dblReg st0 ["addOne"] [] 9) :=
  ⟨by decide,
   C2_cache_identity dblReg st0 ["addOne"] [] 9 0
     (getCalcFn dblReg st0 ["addOne"] [] 9)
     (getCalcSt dblReg st0 ["addOne"] [] 9) (by decide)⟩

/-- Total input count of the registry entries whose keys are not yet
visited: the traversal can still push at most this many names. -/
def unseenInputs (deps : Registry) (visited : List VName) : Nat :=
  ((deps.filter (fun p => !visited.contains p.1)).map
    (fun p => p.2.inputs.length)).sum

theorem unseenInputs_mono (deps : Registry) (v : VName)
    (visited : List VName) :
    unseenInputs deps (v :: visited) ≤ unseenInputs deps visited := by
  induction deps with
  | nil => simp [unseenInputs]
  | cons p t ih =>
    simp only [unseenInputs] at ih ⊢
    by_cases hm : p.1 ∈ visited
    · have hm2 : p.1 ∈ v :: visited := List.mem_cons_of_mem _ hm
      simp only [List.filter_cons]
      simp [hm, hm2]
      try simp at ih
      omega
    · by_cases hp : p.1 = v
      · have hm2 : p.1 ∈ v :: visited := by simp [hp]
        simp only [List.filter_cons]
        simp [hm, hm2]
        try simp at ih
        omega
      · have hm2 : p.1 ∉ v :: visited := by simp [hp, hm]
        simp only [List.filter_cons]
        simp [hm, hm2]
        try simp at ih
        omega

theorem unseenInputs_drop (deps : Registry) (visited : List VName)
    (v : VName) (op : OpSpec) (hv : visited.contains v = false)
    (hop : alGet deps v = some op) :
    unseenInputs deps (v :: visited) + op.inputs.length ≤
      unseenInputs deps visited := by
  induction deps with
  | nil => simp [alGet] at hop
  | cons p t ih =>
    by_cases hp : p.1 = v
    · have hopv : op.inputs.length = p.2.inputs.length := by
        have hd : (decide (p.1 = v)) = true := by simp [hp]
        simp only [alGet, List.find?, hd, Option.map_some'] at hop
        rw [← Option.some.inj hop]
      have hvm : p.1 ∉ visited := by
        rw [hp]
        simpa using hv
      have hm2 : p.1 ∈ v :: visited := by simp [hp]
      have hmono := unseenInputs_mono t v visited
      simp only [unseenInputs] at hmono ⊢
      simp only [List.filter_cons]
      simp [hvm, hm2]
      try simp at hmono
      omega
    · have hopt : alGet t v = some op := by
        simpa [alGet, List.find?, hp] using hop
      have ihp := ih hopt
      simp only [unseenInputs] at ihp ⊢
      by_cases hk : p.1 ∈ visited
      · have hk2 : p.1 ∈ v :: visited := List.mem_cons_of_mem _ hk
        simp only [List.filter_cons]
        simp [hk, hk2]
        try simp at ihp
        omega
      · have hk2 : p.1 ∉ v :: visited := by simp [hp, hk]
        simp only [List.filter_cons]
        simp [hk, hk2]
        try simp at ihp
        omega

/-- The traversal loop finishes whenever the fuel covers the current
stack plus the inputs of all not-yet-visited registry entries: every
iteration pops one name, and pushing only happens when a registry entry
leaves the unvisited set. -/
theorem travLoop_some (deps : Registry) (pre : List VName) :
    ∀ (fuel : Nat) (stack visited ops params : List VName),
    stack.length + unseenInputs deps visited ≤ fuel →
    (travLoop deps pre fuel stack visited ops params).isSome = true := by
  intro fuel
  induction fuel with
  | zero =>
    intro stack visited ops params h
    cases stack with
    | nil => simp [travLoop]
    | cons v rest => simp at h
  | succ fuel ih =>
    intro stack visited ops params h
    cases stack with
    | nil => simp [travLoop]
    | cons v rest =>
      simp only [List.length_cons] at h
      simp only [travLoop]
      split
      next => exact ih rest visited ops params (by omega)
      next hv =>
        split
        next =>
          apply ih rest (v :: visited) ops (v :: params)
          have := unseenInputs_mono deps v visited
          omega
        next op hop =>
          split
          next =>
            apply ih rest (v :: visited) ops (v :: params)
            have := unseenInputs_mono deps v visited
            omega
          next =>
            apply ih _ (v :: visited) _ params
            rw [List.length_append, List.length_reverse]
            have hdrop := unseenInputs_drop deps visited v op
              (by simpa using hv) hop
            omega

/-- C7 (amended): `traverse` terminates on **every** registry, request
and precomputed set — including requests whose required operations form a
true cycle — because the visited set prevents re-expansion; the explicit
fuel `travFuelBound` always suffices for the `while (stack.length)` loop.
(The non-termination on cycles lives in `linearize`, see C1.) -/
theorem C7_traverse_total (deps : Registry) (reqs pre : List VName) :
    (travLoop deps pre (travFuelBound deps reqs)
      reqs.reverse [] [] []).isSome = true := by
  apply travLoop_some
  have h1 : unseenInputs deps [] =
      (deps.map (fun p => p.2.inputs.length)).sum := by
    have hf : deps.filter (fun p => !([] : List VName).contains p.1) = deps :=
      List.filter_eq_self.mpr (fun a _ => rfl)
    rw [unseenInputs, hf]
  rw [List.length_reverse, travFuelBound, h1]

theorem alGet_alSet_ne {α : Type _} (m : List (VName × α)) (k k' : VName)
    (v : α) (hne : k' ≠ k) : alGet (alSet m k v) k' = alGet m k' := by
  unfold alSet
  by_cases h : m.any (fun p => p.1 = k)
  · rw [if_pos h]
    clear h
    induction m with
    | nil => rfl
    | cons p t ih =>
      by_cases hp : p.1 = k
      · have h1 : (decide (k = k')) = false := by
          simp only [decide_eq_false_iff_not]
          exact fun hh => hne hh.symm
        have h2 : (decide (p.1 = k')) = false := by
          simp only [decide_eq_false_iff_not]
          rw [hp]
          exact fun hh => hne hh.symm
        simp only [List.map_cons, if_pos hp, alGet, List.find?, h1, h2] at ih ⊢
        exact ih
      · simp only [List.map_cons, if_neg hp, alGet, List.find?] at ih ⊢
        by_cases hp' : p.1 = k'
        · simp [hp']
        · have h2 : (decide (p.1 = k')) = false := by simp [hp']
          simp only [h2] at ih ⊢
          exact ih
  · rw [if_neg h]
    clear h
    induction m with
    | nil =>
      have h1 : (decide (k = k')) = false := by
        simp only [decide_eq_false_iff_not]
        exact fun hh => hne hh.symm
      simp [alGet, List.find?, h1]
    | cons p t ih =>
      by_cases hp' : p.1 = k'
      · simp [alGet, List.find?, hp']
      · have h2 : (decide (p.1 = k')) = false := by simp [hp']
        simp only [List.cons_append, alGet, List.find?, h2] at ih ⊢
        exact ih

theorem alGet_alSet_isSome {α : Type _} (m : List (VName × α)) (k k' : VName)
    (v : α) (h : (alGet m k').isSome = true) :
    (alGet (alSet m k v) k').isSome = true := by
  by_cases hk : k' = k
  · rw [hk, alGet_alSet_self]; rfl
  · rw [alGet_alSet_ne m k k' v hk]; exact h

theorem heapSet_beyond (h : Heap) (r : Nat) (o : Obj)
    (hr : h.length ≤ r) : heapSet h r o = h := by
  induction h generalizing r with
  | nil => rfl
  | cons a t ih =>
    cases r with
    | zero => simp at hr
    | succ r =>
      simp only [heapSet, List.set]
      simp only [List.length_cons, Nat.succ_le_succ_iff] at hr
      have := ih r hr
      simp only [heapSet] at this
      rw [this]

theorem heapGet_heapSet_self (h : Heap) (r : Nat) (o : Obj)
    (hr : r < h.length) : heapGet (heapSet h r o) r = o := by
  induction h generalizing r with
  | nil => simp at hr
  | cons a t ih =>
    cases r with
    | zero => rfl
    | succ r =>
      simp only [heapSet, List.set, heapGet, List.getD_cons_succ]
      exact ih r (by simpa using hr)

theorem heapGet_heapSet_ne (h : Heap) (i j : Nat) (o : Obj)
    (hne : j ≠ i) : heapGet (heapSet h i o) j = heapGet h j := by
  induction h generalizing i j with
  | nil => rfl
  | cons a t ih =>
    cases i with
    | zero =>
      cases j with
      | zero => exact absurd rfl hne
      | succ j => rfl
    | succ i =>
      cases j with
      | zero => rfl
      | succ j =>
        simp only [heapSet, List.set, heapGet, List.getD_cons_succ]
        exact ih i j (fun hc => hne (by rw [hc]))

theorem heapGet_append_lt (h : Heap) (o : Obj) (j : Nat)
    (hj : j < h.length) : heapGet (h ++ [o]) j = heapGet h j := by
  induction h generalizing j with
  | nil => simp at hj
  | cons a t ih =>
    cases j with
    | zero => rfl
    | succ j =>
      simp only [List.cons_append, heapGet, List.getD_cons_succ]
      exact ih j (by simpa using hj)

theorem heapGet_append_self (h : Heap) (o : Obj) :
    heapGet (h ++ [o]) h.length = o := by
  induction h with
  | nil => rfl
  | cons a t ih =>
    simp only [List.cons_append, heapGet, List.length_cons,
      List.getD_cons_succ]
    exact ih

/-- Heap invariants of the input-resolution loop, generically in the
element evaluator: heap length is preserved, cells other than the memo
reference are untouched, and keys present in the memo stay present. -/
theorem calcListWith_props
    (f : VName → Nat → Heap → Except IErr Int × Heap)
    (hf : ∀ (n : VName) (r : Nat) (h : Heap),
      ((f n r h).2).length = h.length ∧
      (∀ r', r' ≠ r → heapGet ((f n r h).2) r' = heapGet h r') ∧
      (∀ k, (alGet (heapGet h r) k).isSome = true →
        (alGet (heapGet ((f n r h).2) r) k).isSome = true)) :
    ∀ (ns : List VName) (r : Nat) (h : Heap),
      ((calcListWith f ns r h).2).length = h.length ∧
      (∀ r', r' ≠ r → heapGet ((calcListWith f ns r h).2) r' = heapGet h r') ∧
      (∀ k, (alGet (heapGet h r) k).isSome = true →
        (alGet (heapGet ((calcListWith f ns r h).2) r) k).isSome = true) := by
  intro ns
  induction ns with
  | nil => intro r h; simp [calcListWith]
  | cons n t ih =>
    intro r h
    simp only [calcListWith]
    split
    · next e h' heq =>
      have hp := hf n r h
      rw [heq] at hp
      exact hp
    · next v h' heq =>
      have hp := hf n r h
      rw [heq] at hp
      obtain ⟨hlen1, hframe1, hmono1⟩ := hp
      split
      · next e h'' heq2 =>
        have hq := ih r h'
        rw [heq2] at hq
        obtain ⟨hlen2, hframe2, hmono2⟩ := hq
        exact ⟨hlen2.trans hlen1,
          fun r' hr' => (hframe2 r' hr').trans (hframe1 r' hr'),
          fun k hk => hmono2 k (hmono1 k hk)⟩
      · next vs h'' heq2 =>
        have hq := ih r h'
        rw [heq2] at hq
        obtain ⟨hlen2, hframe2, hmono2⟩ := hq
        exact ⟨hlen2.trans hlen1,
          fun r' hr' => (hframe2 r' hr').trans (hframe1 r' hr'),
          fun k hk => hmono2 k (hmono1 k hk)⟩

/-- Heap invariants of `calcValue`: the heap keeps its length, cells
other than the memo reference are untouched (`vals[req] = val` writes
only through the memo reference), and keys present in the memo stay
present. -/
theorem calcValue_props (deps : Registry) :
    ∀ (fuel : Nat) (req : VName) (r : Nat) (h : Heap),
      ((calcValue deps fuel req r h).2).length = h.length ∧
      (∀ r', r' ≠ r →
        heapGet ((calcValue deps fuel req r h).2) r' = heapGet h r') ∧
      (∀ k, (alGet (heapGet h r) k).isSome = true →
        (alGet (heapGet ((calcValue deps fuel req r h).2) r) k).isSome
          = true) := by
  intro fuel
  induction fuel with
  | zero => intro req r h; simp [calcValue]
  | succ fuel ih =>
    intro req r h
    simp only [calcValue]
    split
    · exact ⟨rfl, fun _ _ => rfl, fun _ hk => hk⟩
    · split
      · exact ⟨rfl, fun _ _ => rfl, fun _ hk => hk⟩
      · next op hop =>
        split
        · next e h' heq =>
          have hp := calcListWith_props _ ih op.inputs r h
          rw [heq] at hp
          exact hp
        · next vs h' heq =>
          have hp := calcListWith_props _ ih op.inputs r h
          rw [heq] at hp
          obtain ⟨hlen, hframe, hmono⟩ := hp
          refine ⟨?_, ?_, ?_⟩
          · simpa [heapSet] using hlen
          · intro r' hr'
            rw [heapGet_heapSet_ne _ _ _ _ hr']
            exact hframe r' hr'
          · intro k hk
            by_cases hr : r < h'.length
            · rw [heapGet_heapSet_self _ _ _ hr]
              exact alGet_alSet_isSome _ _ _ _ (hmono k hk)
            · rw [heapSet_beyond _ _ _ (Nat.le_of_not_lt hr)]
              exact hmono k hk

/-- If the input-resolution loop surfaces a `missing` signal, the named
value has no registered operation and is absent from the memo object at
the moment the signal is raised (the returned heap). -/
theorem calcListWith_missing (deps : Registry)
    (f : VName → Nat → Heap → Except IErr Int × Heap)
    (hf : ∀ n r h m h', f n r h = (.error (.missing m), h') →
      alGet deps m = none ∧ alGet (heapGet h' r) m = none) :
    ∀ (ns : List VName) (r : Nat) (h : Heap) (m : VName) (h' : Heap),
    calcListWith f ns r h = (.error (.missing m), h') →
    alGet deps m = none ∧ alGet (heapGet h' r) m = none := by
  intro ns
  induction ns with
  | nil =>
    intro r h m h' heq
    simp only [calcListWith] at heq
    exact absurd heq (by simp)
  | cons n t ih =>
    intro r h m h' heq
    simp only [calcListWith] at heq
    split at heq
    · next e h₂ heq2 =>
      have he : e = .missing m := Except.error.inj (congrArg Prod.fst heq)
      have hh : h₂ = h' := congrArg Prod.snd heq
      rw [he, hh] at heq2
      exact hf n r h m h' heq2
    · next v h₂ heq2 =>
      split at heq
      · next e h₃ heq3 =>
        have he : e = .missing m := Except.error.inj (congrArg Prod.fst heq)
        have hh : h₃ = h' := congrArg Prod.snd heq
        rw [he, hh] at heq3
        exact ih r h₂ m h' heq3
      · next vs h₃ heq3 => exact absurd heq (by simp)

/-- If `calcValue` raises `missing m`, then `m` has no registered
operation and is absent from the memo object in the returned heap. -/
theorem calcValue_missing (deps : Registry) :
    ∀ (fuel : Nat) (req : VName) (r : Nat) (h : Heap) (m : VName)
      (h' : Heap),
    calcValue deps fuel req r h = (.error (.missing m), h') →
    alGet deps m = none ∧ alGet (heapGet h' r) m = none := by
  intro fuel
  induction fuel with
  | zero =>
    intro req r h m h' heq
    simp only [calcValue] at heq
    exact absurd heq (by simp)
  | succ fuel ih =>
    intro req r h m h' heq
    simp only [calcValue] at heq
    split at heq
    · exact absurd heq (by simp)
    · next hmem =>
      split at heq
      · next hdep =>
        have he : IErr.missing req = IErr.missing m :=
          Except.error.inj (congrArg Prod.fst heq)
        have hm : req = m := IErr.missing.inj he
        have hh : h = h' := congrArg Prod.snd heq
        constructor
        · rw [← hm]; exact hdep
        · rw [← hh, ← hm]; exact hmem
      · next op hop =>
        split at heq
        · next e h₂ heq2 =>
          have he : e = .missing m := Except.error.inj (congrArg Prod.fst heq)
          have hh : h₂ = h' := congrArg Prod.snd heq
          rw [he, hh] at heq2
          exact calcListWith_missing deps _ ih op.inputs r h m h' heq2
        · next vs h₂ heq2 => exact absurd heq (by simp)

/-- The per-request loop of `interpret` writes only through the memo
reference. -/
theorem interpLoop_frame (deps : Registry) (fuel valsRef : Nat) :
    ∀ (vs : List VName) (ret : Obj) (h : Heap) (r' : Nat), r' ≠ valsRef →
    heapGet ((interpLoop deps fuel valsRef vs ret h).2) r' = heapGet h r' := by
  intro vs
  induction vs with
  | nil => intro ret h r' _; rfl
  | cons v t ih =>
    intro ret h r' hr'
    simp only [interpLoop]
    split
    · next x h₂ heq =>
      have hcv := (calcValue_props deps fuel v valsRef h).2.1 r' hr'
      rw [heq] at hcv
      exact (ih _ _ r' hr').trans hcv
    · next m₀ h₂ heq =>
      have hcv := (calcValue_props deps fuel v valsRef h).2.1 r' hr'
      rw [heq] at hcv
      exact hcv
    · next h₂ heq =>
      have hcv := (calcValue_props deps fuel v valsRef h).2.1 r' hr'
      rw [heq] at hcv
      exact hcv

/-- A `cannotCalc` diagnostic from the per-request loop names a processed
top-level request and a value that has no registered operation and was
never present in the memo, in particular not in the memo's initial
contents. -/
theorem interpLoop_missing (deps : Registry) (fuel valsRef : Nat) :
    ∀ (vs : List VName) (ret : Obj) (h : Heap) (t m : VName) (h' : Heap),
    interpLoop deps fuel valsRef vs ret h = (.error (.cannotCalc t m), h') →
    t ∈ vs ∧ alGet deps m = none ∧ alGet (heapGet h valsRef) m = none := by
  intro vs
  induction vs with
  | nil =>
    intro ret h t m h' heq
    simp only [interpLoop] at heq
    exact absurd heq (by simp)
  | cons v rest ih =>
    intro ret h t m h' heq
    simp only [interpLoop] at heq
    split at heq
    · next x h₂ heq2 =>
      obtain ⟨hmem, hdeps, hnone⟩ := ih _ _ t m h' heq
      refine ⟨List.mem_cons_of_mem _ hmem, hdeps, ?_⟩
      cases halg : alGet (heapGet h valsRef) m with
      | none => rfl
      | some x0 =>
        have hsome : (alGet (heapGet h valsRef) m).isSome = true := by
          rw [halg]; rfl
        have hmono := (calcValue_props deps fuel v valsRef h).2.2 m hsome
        rw [heq2] at hmono
        rw [hnone] at hmono
        simp at hmono
    · next m₀ h₂ heq2 =>
      have he := Except.error.inj (congrArg Prod.fst heq)
      have hvt : v = t := (TopErr.cannotCalc.inj he).1
      have hm0 : m₀ = m := (TopErr.cannotCalc.inj he).2
      have hh : h₂ = h' := congrArg Prod.snd heq
      rw [hm0, hh] at heq2
      obtain ⟨hdeps, hnone⟩ := calcValue_missing deps fuel v valsRef h m h' heq2
      refine ⟨by rw [← hvt]; exact List.mem_cons_self v rest, hdeps, ?_⟩
      cases halg : alGet (heapGet h valsRef) m with
      | none => rfl
      | some x0 =>
        have hsome : (alGet (heapGet h valsRef) m).isSome = true := by
          rw [halg]; rfl
        have hmono := (calcValue_props deps fuel v valsRef h).2.2 m hsome
        rw [heq2] at hmono
        rw [hnone] at hmono
        simp at hmono
    · next h₂ heq2 => exact absurd heq (by simp)

/-- C9: when resolving a top-level requested name hits a name with no
registered operation that is not in the memo, `interpret` fails with a
diagnostic carrying exactly that top-level requested name and exactly one
missing raw-input name (the first missing name the depth-first recursion
reaches — "closest in the recursion"), and that name really is missing:
it has no operation and is not among the caller's arguments.  No
transitive report is produced. -/
theorem C9_missing_diagnostic (deps : Registry) (reqs : List VName)
    (argsRef : Nat) (hp : Heap) (fuel : Nat) (t m : VName) (h' : Heap)
    (h : interpret deps reqs argsRef hp fuel = (.error (.cannotCalc t m), h')) :
    t ∈ reqs ∧ alGet deps m = none ∧ alGet (heapGet hp argsRef) m = none := by
  simp only [interpret] at h
  obtain ⟨hmem, hdeps, hnone⟩ :=
    interpLoop_missing deps fuel hp.length reqs [] _ t m h' h
  refine ⟨hmem, hdeps, ?_⟩
  rwa [heapGet_append_self] at hnone

theorem C9_witness :
    interpret missReg ["a"] 0 [[("y", 5)]] 9 =
      (.error (.cannotCalc "a" "x"), interpHeap missReg ["a"] 0 [[("y", 5)]] 9) ∧
    ("a" ∈ ["a"] ∧ alGet missReg "x" = none ∧
      alGet (heapGet [[("y", 5)]] 0) "x" = none) :=
  ⟨by decide,
   C9_missing_diagnostic missReg ["a"] 0 [[("y", 5)]] 9 "a" "x"
     (interpHeap missReg ["a"] 0 [[("y", 5)]] 9) (by decide)⟩

/-- C10: `interpret` never modifies the caller's argument object: all
memoisation happens in the freshly allocated copy, so the argument
object holds exactly its original bindings after the call, whether the
call succeeds or fails. -/
theorem C10_args_preserved (deps : Registry) (reqs : List VName)
    (argsRef : Nat) (hp : Heap) (fuel : Nat) (harg : argsRef < hp.length) :
    heapGet ((interpret deps reqs argsRef hp fuel).2) argsRef =
      heapGet hp argsRef := by
  simp only [interpret]
  rw [interpLoop_frame deps fuel hp.length reqs [] _ argsRef
    (Nat.ne_of_lt harg)]
  exact heapGet_append_lt hp _ argsRef harg

theorem C10_witness :
    0 < ([[("x", 3)]] : Heap).length ∧
    heapGet ((interpret dblReg ["addOne"] 0 [[("x", 3)]] 9).2) 0 =
      heapGet [[("x", 3)]] 0 :=
  ⟨by decide, C10_args_preserved dblReg ["addOne"] 0 [[("x", 3)]] 9 (by decide)⟩

end ApiCompiler
